import Mathlib

/-!
Verification of the word-document parser (`WordParser`): a shallow embedding
of the text-extraction engine, the metadata extraction, the markdown
renderer and the `parseDocument` orchestrator, together with theorems
settling the specification claims.

Strings are modelled by Lean `String` (a list of characters); the dynamic
parsed-XML values produced by the XML collaborator are modelled by the
`Node` type below (a string leaf, an ordered sequence, or an object given
as an ordered association list, mirroring a JavaScript object's insertion
order).  JavaScript truthiness on these values is modelled by `truthyN`:
the empty string is the only falsy `Node`; an absent key is falsy.
-/

/-! ## Character classes (ASCII, as in the source regexes) -/

def isWsChar (c : Char) : Bool :=
  c == ' ' || c == '\t' || c == '\n' || c == '\r' || c == '\x0b' || c == '\x0c'

def isSpaceTab (c : Char) : Bool := c == ' ' || c == '\t'

def isLowerAZ (c : Char) : Bool := 'a' ≤ c && c ≤ 'z'

def isUpperAZ (c : Char) : Bool := 'A' ≤ c && c ≤ 'Z'

def isDigit09 (c : Char) : Bool := '0' ≤ c && c ≤ '9'

/-- The character class `[0-9A-F]` of the hex-run removal regex. -/
def isHexUC (c : Char) : Bool := isDigit09 c || ('A' ≤ c && c ≤ 'F')

/-! ## String helpers (all defined on the character list) -/

/-- `String.prototype.trim`: drop whitespace from both ends. -/
def trimChars (l : List Char) : List Char :=
  ((l.dropWhile isWsChar).reverse.dropWhile isWsChar).reverse

def trimStr (s : String) : String := ⟨trimChars s.data⟩

/-- Contiguous-substring test on character lists. -/
def containsSub (pat : List Char) : List Char → Bool
  | [] => pat.isEmpty
  | c :: cs => pat.isPrefixOf (c :: cs) || containsSub pat cs

/-- `s.includes(pat)`: substring containment. -/
def containsStr (s pat : String) : Bool := containsSub pat.data s.data

/-- `s.startsWith(pat)`. -/
def startsWithStr (s pat : String) : Bool := pat.data.isPrefixOf s.data

/-- `Array.prototype.join(sep)`. -/
def joinSep (sep : String) : List String → String
  | [] => ""
  | [s] => s
  | s :: rest => s ++ sep ++ joinSep sep rest

/-! ## The parsed-XML value model -/

/-- A dynamically shaped parsed-XML value: a text leaf, an ordered sequence,
or an element object (tag/attribute names mapped to child values, in
insertion order). -/
inductive Node where
  | str (s : String)
  | arr (l : List Node)
  | obj (e : List (String × Node))

/-- JavaScript property lookup `o[k]` on an object literal: first binding of
the key, `none` when absent. -/
def getKey (k : String) : List (String × Node) → Option Node
  | [] => none
  | (k', v) :: rest => if k' = k then some v else getKey k rest

/-- JavaScript truthiness of an optional `Node` value: an absent value and
the empty string are falsy; every other string, every array and every
object is truthy. -/
def truthyN : Option Node → Bool
  | none => false
  | some (.str s) => !(s == "")
  | some (.arr _) => true
  | some (.obj _) => true

/-- Property lookup on an arbitrary value: only objects have properties
(string/array property access by these names yields `undefined`). -/
def getProp (n : Node) (k : String) : Option Node :=
  match n with
  | .obj e => getKey k e
  | _ => none

/-! ## The literal-text (`w:t`) handler of `extractText` -/

/-- Value of `element['w:t']['$']['xml:space'] === 'preserve'`. -/
def xmlSpacePreserve (d : Node) : Bool :=
  match getProp d "xml:space" with
  | some (.str s) => s == "preserve"
  | _ => false

/-- The `text` local variable of the `w:t` branch, when it ends up holding a
string (`none` when it holds a non-string value, which the
`typeof text === 'string'` guard then rejects).  Mirrors the three-way
chain: a direct string child; an object child with a truthy `_` property;
an object child with a truthy `$` attribute object, contributing
`wt['_'] || ''` only under `xml:space === 'preserve'`; otherwise `''`. -/
def wtCandidate (wt : Node) : Option String :=
  match wt with
  | .str s => some s
  | .arr _ => some ""
  | .obj we =>
    if truthyN (getKey "_" we) then
      match getKey "_" we with
      | some (.str s) => some s
      | some _ => none
      | none => some ""
    else if truthyN (getKey "$" we) then
      match getKey "$" we with
      | some d =>
        if xmlSpacePreserve d then
          if truthyN (getKey "_" we) then
            match getKey "_" we with
            | some (.str s) => some s
            | some _ => none
            | none => some ""
          else some ""
        else some ""
      | none => some ""
    else some ""

/-- Fragment push of the `w:t` branch: push the (untrimmed) text when it is
a non-empty string whose trim is non-empty and which does not contain
`"http://schemas"`. -/
def wtPush (wt : Node) (acc : List String) : List String :=
  match wtCandidate wt with
  | some t =>
    if !(t == "") && !(trimStr t == "") && !containsStr t "http://schemas" then
      acc ++ [t]
    else acc
  | none => acc

/-- Key filter of the generic recursion step: recurse only into children of
the markup namespace that are not property/style/font/settings subtrees and
not the already-handled literal-text tag. -/
def allowedKey (k : String) : Bool :=
  startsWithStr k "w:" &&
  !containsStr k "Pr" &&
  !containsStr k "Style" &&
  !containsStr k "Properties" &&
  !containsStr k "Fonts" &&
  !containsStr k "Settings" &&
  !(k == "w:t")

/-- Does the last accumulated fragment end in a newline
(`textParts[textParts.length - 1].endsWith('\n')`)? -/
def lastEndsNl (acc : List String) : Bool :=
  match acc.getLast? with
  | some s => s.data.getLast? == some '\n'
  | none => false

/-! ## The recursive walk `extractTextFromElement` -/

mutual

/-- The recursive accumulator walk of `extractText`
(`extractTextFromElement`), with the mutated `textParts` array made an
explicit accumulator.  The empty string is falsy and returns at the
`if (!element) return` guard; a string leaf contributes its trim unless
empty or containing `"http://schemas.microsoft.com"`; arrays are walked in
order; objects dispatch on the first truthy structural tag in source
order (`w:t`, `w:p`, `w:r`, `w:tab`, `w:br`, `w:document`, `w:body`),
falling through to the filtered generic recursion over all entries. -/
def extractFrom : Node → List String → List String
  | .str s, acc =>
    if s == "" then acc
    else
      if !(trimStr s == "") && !containsStr (trimStr s) "http://schemas.microsoft.com" then
        acc ++ [trimStr s]
      else acc
  | .arr l, acc => extractFromList l acc
  | .obj e, acc =>
    if truthyN (getKey "w:t" e) then
      match getKey "w:t" e with
      | some wt => wtPush wt acc
      | none => acc
    else if truthyN (getKey "w:p" e) then
      let acc' := if !(acc == []) && !lastEndsNl acc then acc ++ ["\n\n"] else acc
      extractFromGet e "w:p" acc'
    else if truthyN (getKey "w:r" e) then extractFromGet e "w:r" acc
    else if truthyN (getKey "w:tab" e) then acc ++ ["\t"]
    else if truthyN (getKey "w:br" e) then acc ++ ["\n"]
    else if truthyN (getKey "w:document" e) then extractFromGet e "w:document" acc
    else if truthyN (getKey "w:body" e) then extractFromGet e "w:body" acc
    else extractFromEntries e acc

/-- Ordered walk of a sequence (`element.forEach(item => ...)`). -/
def extractFromList : List Node → List String → List String
  | [], acc => acc
  | n :: ns, acc => extractFromList ns (extractFrom n acc)

/-- Walk the value of the first binding of key `k`
(recursion into `element[k]` after a successful truthiness test). -/
def extractFromGet : List (String × Node) → String → List String → List String
  | [], _, acc => acc
  | (k', v) :: rest, k, acc => if k' = k then extractFrom v acc else extractFromGet rest k acc

/-- The generic recursion step: walk every entry in order, descending only
into values whose key passes `allowedKey`. -/
def extractFromEntries : List (String × Node) → List String → List String
  | [], acc => acc
  | (k, v) :: rest, acc =>
    extractFromEntries rest (if allowedKey k then extractFrom v acc else acc)

end

/-! ## The normalization pipeline -/

/-- Emit a run of `n` newlines after `\n{3,}` collapsing: runs of three or
more become exactly two. -/
def nlRunEmit (n : Nat) : List Char :=
  if n ≥ 3 then ['\n', '\n'] else List.replicate n '\n'

/-- `.replace(/\n{3,}/g, '\n\n')`, tracking the length of the pending
newline run. -/
def collapseNl (n : Nat) : List Char → List Char
  | [] => nlRunEmit n
  | c :: cs => if c == '\n' then collapseNl (n + 1) cs else nlRunEmit n ++ (c :: collapseNl 0 cs)

/-- `.replace(/p+/g, r)` for a character class `p`: every maximal run of
`p`-characters becomes the single character `r`.  The flag records whether
the previous character was inside a run. -/
def squashRuns (p : Char → Bool) (r : Char) : Bool → List Char → List Char
  | _, [] => []
  | inRun, c :: cs =>
    if p c then
      if inRun then squashRuns p r true cs else r :: squashRuns p r true cs
    else c :: squashRuns p r false cs

/-- `.replace(/\n /g, '\n')`: scanning resumes after each replaced match. -/
def dropSpaceAfterNl : List Char → List Char
  | '\n' :: ' ' :: rest => '\n' :: dropSpaceAfterNl rest
  | c :: rest => c :: dropSpaceAfterNl rest
  | [] => []

/-- `.replace(/([p])([q])/g, '$1 $2')`: insert a space between a
`p`-character and an immediately following `q`-character; scanning resumes
after the matched pair. -/
def pairSpace (p q : Char → Bool) : List Char → List Char
  | a :: b :: rest =>
    if p a && q b then a :: ' ' :: b :: pairSpace p q rest
    else a :: pairSpace p q (b :: rest)
  | l => l

/-- `.replace(/([A-Z])([A-Z][a-z])/g, '$1 $2')`; the match consumes three
characters. -/
def capsSpace : List Char → List Char
  | a :: b :: c :: rest =>
    if isUpperAZ a && isUpperAZ b && isLowerAZ c then a :: ' ' :: b :: c :: capsSpace rest
    else a :: capsSpace (b :: c :: rest)
  | l => l

/-- Emit a pending `[0-9A-F]` run: runs of eight or more are removed. -/
def hexEmit (buf : List Char) : List Char := if buf.length ≥ 8 then [] else buf

/-- `.replace(/[0-9A-F]{8,}/g, '')`, tracking the pending hex run. -/
def dropHexRuns (buf : List Char) : List Char → List Char
  | [] => hexEmit buf
  | c :: cs =>
    if isHexUC c then dropHexRuns (buf ++ [c]) cs
    else hexEmit buf ++ (c :: dropHexRuns [] cs)

/-- The full normalization chain applied to the joined fragments, in source
order: collapse newline runs, collapse space/tab runs, drop a space after a
newline, the three camel-case/digit word-boundary insertions, the
caps-caps-lower insertion, hex-run removal, whitespace-run collapsing, and
a final trim. -/
def normalizeText (s : String) : String :=
  ⟨trimChars (squashRuns isWsChar ' ' false (dropHexRuns []
    (pairSpace isLowerAZ isDigit09 (pairSpace isDigit09 isUpperAZ (capsSpace
      (pairSpace isLowerAZ isUpperAZ (dropSpaceAfterNl
        (squashRuns isSpaceTab ' ' false (collapseNl 0 s.data)))))))))⟩

/-! ## The fallback scan `extractTextFallback` -/

mutual

/-- The permissive fallback collector `findText`: push the trim of every
string leaf whose trim is non-empty and which does not contain
`"http://schemas"`; recurse through arrays and through every object value
regardless of key. -/
def findText : Node → List String → List String
  | .str s, acc =>
    if !(trimStr s == "") && !containsStr s "http://schemas" then acc ++ [trimStr s] else acc
  | .arr l, acc => findTextList l acc
  | .obj e, acc => findTextEntries e acc

def findTextList : List Node → List String → List String
  | [], acc => acc
  | n :: ns, acc => findTextList ns (findText n acc)

def findTextEntries : List (String × Node) → List String → List String
  | [], acc => acc
  | (_, v) :: rest, acc => findTextEntries rest (findText v acc)

end

/-- The token filter of the fallback: keep fragments longer than two
characters that are not purely numeric (`/^[0-9]+$/`). -/
def keepToken (t : String) : Bool :=
  decide (t.length > 2) && !(!(t.data == []) && t.data.all isDigit09)

/-- `extractTextFallback`: collect, filter, join with single spaces,
collapse whitespace runs and trim. -/
def extractTextFallback (n : Node) : String :=
  ⟨trimChars (squashRuns isWsChar ' ' false
    (joinSep " " ((findText n []).filter keepToken)).data)⟩

/-- The primary pipeline result: fragments joined with single spaces, then
normalized. -/
def primaryText (n : Node) : String := normalizeText (joinSep " " (extractFrom n []))

/-- `extractText`: the primary pipeline, replaced by the fallback scan when
the primary result is falsy or shorter than ten characters and the
fallback is truthy and strictly longer. -/
def extractText (n : Node) : String :=
  let finalText := primaryText n
  if finalText == "" || decide (finalText.length < 10) then
    let fallbackText := extractTextFallback n
    if !(fallbackText == "") && decide (fallbackText.length > finalText.length) then fallbackText
    else finalText
  else finalText


/-! ## Metadata extraction -/

/-- A JavaScript number as produced by `parseInt`: an integer or NaN. -/
inductive JsNum where
  | nan
  | int (n : Int)
deriving DecidableEq

mutual

/-- JavaScript string coercion `String(v)` of a parsed value: a string is
itself, an array joins its members' coercions with commas, a plain object
coerces to `"[object Object]"`. -/
def jsToString : Node → String
  | .str s => s
  | .arr l => joinSep "," (jsToStringList l)
  | .obj _ => "[object Object]"

def jsToStringList : List Node → List String
  | [] => []
  | n :: ns => jsToString n :: jsToStringList ns

end

/-- Decimal digit accumulation for `parseInt`. -/
def decDigits (acc : Nat) : List Char → Nat
  | [] => acc
  | c :: cs => if isDigit09 c then decDigits (acc * 10 + (c.toNat - '0'.toNat)) cs else acc

def isHexDigit (c : Char) : Bool :=
  isDigit09 c || ('a' ≤ c && c ≤ 'f') || ('A' ≤ c && c ≤ 'F')

def hexDigitVal (c : Char) : Nat :=
  if isDigit09 c then c.toNat - '0'.toNat
  else if 'a' ≤ c && c ≤ 'f' then c.toNat - 'a'.toNat + 10
  else c.toNat - 'A'.toNat + 10

/-- Hexadecimal digit accumulation for `parseInt` after a `0x` prefix. -/
def hexDigits (acc : Nat) : List Char → Nat
  | [] => acc
  | c :: cs => if isHexDigit c then hexDigits (acc * 16 + hexDigitVal c) cs else acc

/-- `parseInt(s)` with no radix argument: skip leading whitespace, read an
optional sign, auto-detect a `0x`/`0X` hexadecimal prefix, then read the
longest digit prefix; no digit at all yields NaN. -/
def parseIntChars (l : List Char) : JsNum :=
  let l1 := l.dropWhile isWsChar
  let signNeg := l1.head? == some '-'
  let l2 := if l1.head? == some '-' || l1.head? == some '+' then l1.tail else l1
  let mag : Option Nat :=
    match l2 with
    | '0' :: x :: rest =>
      if x == 'x' || x == 'X' then
        match rest with
        | c :: _ => if isHexDigit c then some (hexDigits 0 rest) else none
        | [] => none
      else some (decDigits 0 l2)
    | c :: _ => if isDigit09 c then some (decDigits 0 l2) else none
    | [] => none
  match mag with
  | none => .nan
  | some m => .int (if signNeg then -(m : Int) else (m : Int))

/-- `parseInt` applied to an arbitrary parsed value, via string coercion. -/
def parseIntNode (v : Node) : JsNum := parseIntChars (jsToString v).data

/-- The metadata record.  `title`/`author`/`subject` hold the raw parsed
value assigned from the core-properties part (absent when the key is
absent); `created`/`modified` hold the raw value handed to the external
`Date` constructor when truthy; `pages`/`words`/`characters` hold the
`parseInt` result assigned when the application-properties field is
truthy. -/
structure DocumentMetadata where
  title : Option Node := none
  author : Option Node := none
  subject : Option Node := none
  created : Option Node := none
  modified : Option Node := none
  pages : Option JsNum := none
  words : Option JsNum := none
  characters : Option JsNum := none

/-- `parsed[key] || val` for the property-container lookups. -/
def propsOr (parsed : Node) (k : String) : Node :=
  match getProp parsed k with
  | some v => if truthyN (some v) then v else .obj []
  | none => .obj []

/-- The core-properties assignments of `extractMetadata`. -/
def coreFields (parsed : Node) : DocumentMetadata :=
  let props := propsOr parsed "cp:coreProperties"
  { title := getProp props "dc:title"
    author := getProp props "dc:creator"
    subject := getProp props "dc:subject"
    created := if truthyN (getProp props "dcterms:created") then getProp props "dcterms:created" else none
    modified := if truthyN (getProp props "dcterms:modified") then getProp props "dcterms:modified" else none }

/-- The application-properties assignments of `extractMetadata`, applied on
top of an existing record `m`: each of `Pages`/`Words`/`Characters` is
assigned `parseInt` of its value when the value is truthy. -/
def appFields (parsed : Node) (m : DocumentMetadata) : DocumentMetadata :=
  let props := propsOr parsed "Properties"
  let m1 := if truthyN (getProp props "Pages") then
    { m with pages := (getProp props "Pages").map parseIntNode } else m
  let m2 := if truthyN (getProp props "Words") then
    { m1 with words := (getProp props "Words").map parseIntNode } else m1
  if truthyN (getProp props "Characters") then
    { m2 with characters := (getProp props "Characters").map parseIntNode } else m2

/-- `extractMetadata` over the two parsed auxiliary parts.  Each argument is
`none` when the raw part is absent or empty, `some (.error ())` when the
XML collaborator rejects it, and `some (.ok v)` on success.  The single
try/catch around both sections means a core-part parse failure abandons
the whole extraction (returning the record assembled so far, i.e. the
empty record), while failures are never propagated to the caller. -/
def extractMetadataParts (core app : Option (Except Unit Node)) : DocumentMetadata :=
  match core with
  | some (.error _) => {}
  | _ =>
    let m := match core with
      | some (.ok parsed) => coreFields parsed
      | _ => {}
    match app with
    | some (.error _) => m
    | some (.ok parsed) => appFields parsed m
    | none => m

/-! ## The markdown renderer -/

/-- `content.split(/(?<=[.!?])\s+/)`: the separator is a maximal whitespace
run whose preceding character is sentence-ending punctuation. -/
def isSentPunct (c : Char) : Bool := c == '.' || c == '!' || c == '?'

mutual

/-- Scanner state inside a sentence: `prev` is the previously consumed
character (for the look-behind), `cur` the current sentence reversed. -/
def splitGo (prev : Option Char) (cur : List Char) : List Char → List (List Char)
  | [] => [cur.reverse]
  | c :: cs =>
    if isWsChar c && (match prev with | some p => isSentPunct p | none => false) then
      cur.reverse :: splitSep cs
    else splitGo (some c) (c :: cur) cs

/-- Scanner state inside a separator: consume the whitespace run, then
start the next sentence (a trailing separator yields a trailing empty
sentence, as `String.prototype.split` does). -/
def splitSep : List Char → List (List Char)
  | [] => [[]]
  | c :: cs => if isWsChar c then splitSep cs else splitGo (some c) [c] cs

end

def splitSentences (s : String) : List String :=
  (splitGo none [] s.data).map fun l => ⟨l⟩

/-- The heading heuristic `/^[A-Z][a-z]*\s*[A-Z]/.test(s)`: an uppercase
letter, zero or more lowercase letters, zero or more whitespace characters,
then an uppercase letter. -/
def headingPat (s : String) : Bool :=
  match s.data with
  | c :: rest =>
    isUpperAZ c &&
      (match (rest.dropWhile isLowerAZ).dropWhile isWsChar with
       | c2 :: _ => isUpperAZ c2
       | [] => false)
  | [] => false

/-- The sentence loop of `convertToMarkdown`: `para` is the accumulating
paragraph buffer, `acc` the markdown built so far.  A non-empty trimmed
sentence under fifty characters matching `headingPat` flushes the buffer
and becomes a `## ` sub-heading; otherwise it is appended to the buffer,
which is flushed once its length exceeds two hundred.  The trailing buffer
is flushed at the end when its trim is truthy. -/
def mdLoop : List String → String → String → String
  | [], para, acc => if !(trimStr para == "") then acc ++ trimStr para ++ "\n\n" else acc
  | s :: rest, para, acc =>
    let clean := trimStr s
    if clean == "" then mdLoop rest para acc
    else if decide (clean.length < 50) && headingPat clean then
      let acc' := if !(para == "") then acc ++ trimStr para ++ "\n\n" else acc
      mdLoop rest "" (acc' ++ "## " ++ clean ++ "\n\n")
    else
      let para' := para ++ clean ++ " "
      if decide (para'.length > 200) then mdLoop rest "" (acc ++ trimStr para' ++ "\n\n")
      else mdLoop rest para' acc

/-- `convertToMarkdown`: optional title and author header lines from the
metadata (JavaScript truthiness on the raw values, string interpolation via
`jsToString`), then the sentence loop, then a final trim. -/
def convertToMarkdown (content : String) (metadata : Option DocumentMetadata) : String :=
  let header := match metadata with
    | some m =>
      (if truthyN m.title then
        (match m.title with | some t => "# " ++ jsToString t ++ "\n\n" | none => "") else "") ++
      (if truthyN m.author then
        (match m.author with | some a => "**Author:** " ++ jsToString a ++ "\n\n" | none => "") else "")
    | none => ""
  trimStr (mdLoop (splitSentences content) "" header)

/-- One step of the sentence loop as the amended claim describes it, for a
sentence whose trim is non-empty: promote to a `## ` sub-heading (flushing
a non-empty paragraph buffer first) exactly when the trimmed sentence is
under fifty characters and matches `headingPat`; otherwise append it to
the buffer, flushing the buffer once it exceeds two hundred characters. -/
def mdStep (s : String) (rest : List String) (para acc : String) : String :=
  if (trimStr s).length < 50 ∧ headingPat (trimStr s) = true then
    mdLoop rest ""
      ((if para ≠ "" then acc ++ trimStr para ++ "\n\n" else acc) ++ "## " ++ trimStr s ++ "\n\n")
  else if (para ++ trimStr s ++ " ").length > 200 then
    mdLoop rest "" (acc ++ trimStr (para ++ trimStr s ++ " ") ++ "\n\n")
  else mdLoop rest (para ++ trimStr s ++ " ") acc


/-! ## The processing orchestrator `parseDocument` -/

/-- Result of the safety collaborator's `validateFile`. -/
structure SafetyResult where
  isSafe : Bool
  issues : List String
  hash : String := ""
  fileSize : Nat := 0

/-- The parser configuration after constructor defaulting. -/
structure WordConfig where
  extractImages : Bool := false
  preserveFormatting : Bool := true
  includeMetadata : Bool := true
  outputFormat : String := "text"
  safetyChecks : Bool := true

/-- The external collaborators of one `parseDocument` call, abstracted as
values: the safety validation outcome (`.error` models a thrown fault),
the container read (the named raw parts, in entry order), and the XML
collaborator (`.error` models a parse rejection, carrying the message). -/
structure ParseEnv where
  safety : Except String SafetyResult
  container : Except String (List (String × String))
  parseXml : String → Except String Node

/-- The structured result record.  `processingTime` (wall-clock) is outside
the embedding; image payloads are kept as the raw part contents (the
base64-to-bytes decoding is external). -/
structure ProcessingResult where
  success : Bool
  content : Option String := none
  metadata : Option DocumentMetadata := none
  images : Option (List String) := none
  warnings : List String := []
  errors : List String := []

def lookupStr (k : String) : List (String × String) → Option String
  | [] => none
  | (k', v) :: rest => if k' = k then some v else lookupStr k rest

def endsWithStr (s pat : String) : Bool := pat.data.reverse.isPrefixOf s.data.reverse

def toLowerAscii (c : Char) : Char :=
  if isUpperAZ c then Char.ofNat (c.toNat + 32) else c

/-- The image-name filter `/\.(png|jpg|jpeg|gif|bmp)$/i` on a
`word/media/` part name. -/
def hasImageExt (f : String) : Bool :=
  let low : String := ⟨f.data.map toLowerAscii⟩
  endsWithStr low ".png" || endsWithStr low ".jpg" || endsWithStr low ".jpeg" ||
  endsWithStr low ".gif" || endsWithStr low ".bmp"

/-- `extractImages`: the parts under `word/media/` with an image extension
and truthy content, in entry order. -/
def imagesOf (content : List (String × String)) : List String :=
  (content.filter fun p => startsWithStr p.1 "word/media/" && hasImageExt p.1).filterMap
    fun p => if p.2 == "" then none else some p.2

/-- The core-properties input handed to `extractMetadata`: absent when the
raw part is absent or empty, otherwise the XML collaborator's verdict. -/
def corePart (env : ParseEnv) (content : List (String × String)) : Option (Except Unit Node) :=
  match lookupStr "docProps/core.xml" content with
  | some s => if s == "" then none else some ((env.parseXml s).mapError fun _ => ())
  | none => none

/-- The application-properties input handed to `extractMetadata`. -/
def appPart (env : ParseEnv) (content : List (String × String)) : Option (Except Unit Node) :=
  match lookupStr "docProps/app.xml" content with
  | some s => if s == "" then none else some ((env.parseXml s).mapError fun _ => ())
  | none => none

/-- The pipeline after a passed (or disabled) safety check: container read,
document-part lookup (absent or empty is the missing-part failure), XML
parse, then text extraction and the optional metadata/image stages; any
collaborator fault becomes a `Parsing failed:` error entry. -/
def parseAfterSafety (cfg : WordConfig) (env : ParseEnv) : ProcessingResult :=
  match env.container with
  | .error msg => { success := false, errors := ["Parsing failed: " ++ msg] }
  | .ok content =>
    match lookupStr "word/document.xml" content with
    | none => { success := false, errors := ["Invalid DOCX: Missing document.xml"] }
    | some docXml =>
      if docXml == "" then { success := false, errors := ["Invalid DOCX: Missing document.xml"] }
      else
        match env.parseXml docXml with
        | .error msg => { success := false, errors := ["Parsing failed: " ++ msg] }
        | .ok parsed =>
          { success := true
            content := some (extractText parsed)
            metadata := if cfg.includeMetadata then
                some (extractMetadataParts (corePart env content) (appPart env content))
              else none
            images := if cfg.extractImages then some (imagesOf content) else none }

/-- `parseDocument`: safety validation first (when enabled), its failure
short-circuiting with the collaborator's issue list as the errors; then
the extraction pipeline. -/
def parseDocument (cfg : WordConfig) (env : ParseEnv) : ProcessingResult :=
  if cfg.safetyChecks then
    match env.safety with
    | .error msg => { success := false, errors := ["Parsing failed: " ++ msg] }
    | .ok s =>
      if !s.isSafe then { success := false, errors := s.issues }
      else parseAfterSafety cfg env
  else parseAfterSafety cfg env

/-! ## Predicates used by the claim statements -/

/-- A tag name excluded by the generic recursion step: one that does not
start with the markup-namespace prefix, or one containing a
property/style/font/settings marker. -/
def exclKey (k : String) : Bool :=
  !startsWithStr k "w:" ||
  containsStr k "Pr" || containsStr k "Style" || containsStr k "Properties" ||
  containsStr k "Fonts" || containsStr k "Settings"

/-- A fully normalized string: no newline, no tab, every whitespace
character a plain space, no two consecutive spaces, and no leading or
trailing space. -/
def wellSpaced (s : String) : Bool :=
  s.data.all (fun c => !(c == '\n')) &&
  s.data.all (fun c => !(c == '\t')) &&
  s.data.all (fun c => !isWsChar c || c == ' ') &&
  !containsStr s "  " &&
  !(s.data.head? == some ' ') &&
  !(s.data.getLast? == some ' ')

/-- No occurrence of the namespace-URI fragment filtered by the primary
string-leaf branch. -/
def noMS (t : String) : Bool := !containsStr t "http://schemas.microsoft.com"

/-- No occurrence of the namespace-URI fragment filtered by the `w:t`
branch and the fallback scan. -/
def noSchemas (t : String) : Bool := !containsStr t "http://schemas"

/-! # Theorems -/

/-! ## Substring and trimming infrastructure -/

theorem containsSub_spec (pat l : List Char) : containsSub pat l = true ↔ pat <:+: l := by
  induction l with
  | nil => simp [containsSub, List.isEmpty_iff]
  | cons c cs ih => simp [containsSub, List.infix_cons_iff, ih, Bool.or_eq_true]

theorem trimChars_within (l : List Char) : trimChars l <:+: l := by
  unfold trimChars
  have h1 : l.dropWhile isWsChar <:+ l := List.dropWhile_suffix _
  have h2 : (l.dropWhile isWsChar).reverse.dropWhile isWsChar <:+
      (l.dropWhile isWsChar).reverse := List.dropWhile_suffix _
  have h3 : ((l.dropWhile isWsChar).reverse.dropWhile isWsChar).reverse <+:
      l.dropWhile isWsChar := by
    have h4 := List.reverse_prefix.mpr h2
    rwa [List.reverse_reverse] at h4
  exact h3.isInfix.trans h1.isInfix

theorem containsSub_mono {p q l : List Char} (hpq : p <:+: q)
    (h : containsSub q l = true) : containsSub p l = true := by
  rw [containsSub_spec] at h ⊢
  exact hpq.trans h

theorem containsSub_within {p l' l : List Char} (hl : l' <:+: l)
    (h : containsSub p l' = true) : containsSub p l = true := by
  rw [containsSub_spec] at h ⊢
  exact h.trans hl

theorem containsStr_trim {s pat : String} (h : containsStr (trimStr s) pat = true) :
    containsStr s pat = true :=
  containsSub_within (trimChars_within s.data) h

/-! ## A structural induction principle for `Node` -/

theorem node_ind (P : Node → Prop)
    (h1 : ∀ s, P (Node.str s))
    (h2 : ∀ l, (∀ x ∈ l, P x) → P (Node.arr l))
    (h3 : ∀ e, (∀ kv ∈ e, P kv.2) → P (Node.obj e)) : ∀ n, P n :=
  @Node.rec P (fun l => ∀ x ∈ l, P x) (fun e => ∀ kv ∈ e, P kv.2) (fun kv => P kv.2)
    h1 h2 h3
    (by simp)
    (fun hd tl hh ht => by
      intro x hx
      rcases List.mem_cons.mp hx with h | h
      · exact h ▸ hh
      · exact ht x h)
    (by simp)
    (fun hd tl hh ht => by
      intro kv hkv
      rcases List.mem_cons.mp hkv with h | h
      · exact h ▸ hh
      · exact ht kv h)
    (fun _ _ hv => hv)

/-! ## Fragment-level filtering (claim C2 support) -/

theorem ms_implies_schemas {t : String}
    (h : containsStr t "http://schemas.microsoft.com" = true) :
    containsStr t "http://schemas" = true :=
  containsSub_mono (List.IsPrefix.isInfix ⟨".microsoft.com".data, by decide⟩) h

theorem noSchemas_noMS {t : String} (h : noSchemas t = true) : noMS t = true := by
  unfold noSchemas at h
  unfold noMS
  cases hms : containsStr t "http://schemas.microsoft.com"
  · rfl
  · rw [ms_implies_schemas hms] at h
    exact absurd h (by decide)

theorem wtPush_all {wt : Node} {acc : List String} (h : acc.all noMS = true) :
    (wtPush wt acc).all noMS = true := by
  unfold wtPush
  cases hc : wtCandidate wt with
  | none => exact h
  | some t =>
    dsimp only
    split
    case isTrue hcond =>
      rw [List.all_append, h]
      simp only [List.all_cons, List.all_nil, Bool.and_true, Bool.true_and]
      have hns : noSchemas t = true := by
        simp only [Bool.and_eq_true] at hcond
        unfold noSchemas
        exact hcond.2
      exact noSchemas_noMS hns
    case isFalse => exact h

theorem extractFromList_all {l : List Node}
    (hl : ∀ x ∈ l, ∀ acc, acc.all noMS = true → (extractFrom x acc).all noMS = true) :
    ∀ acc, acc.all noMS = true → (extractFromList l acc).all noMS = true := by
  induction l with
  | nil => intro acc h; rw [extractFromList]; exact h
  | cons n ns ih =>
    intro acc h
    rw [extractFromList]
    exact ih (fun x hx => hl x (List.mem_cons_of_mem _ hx)) _
      (hl n (List.mem_cons_self _ _) acc h)

theorem extractFromGet_all {e : List (String × Node)}
    (he : ∀ kv ∈ e, ∀ acc, acc.all noMS = true → (extractFrom kv.2 acc).all noMS = true) :
    ∀ k acc, acc.all noMS = true → (extractFromGet e k acc).all noMS = true := by
  induction e with
  | nil => intro k acc h; rw [extractFromGet]; exact h
  | cons kv rest ih =>
    obtain ⟨k', v⟩ := kv
    intro k acc h
    rw [extractFromGet]
    split
    · exact he (k', v) (List.mem_cons_self _ _) acc h
    · exact ih (fun x hx => he x (List.mem_cons_of_mem _ hx)) k acc h

theorem extractFromEntries_all {e : List (String × Node)}
    (he : ∀ kv ∈ e, ∀ acc, acc.all noMS = true → (extractFrom kv.2 acc).all noMS = true) :
    ∀ acc, acc.all noMS = true → (extractFromEntries e acc).all noMS = true := by
  induction e with
  | nil => intro acc h; rw [extractFromEntries]; exact h
  | cons kv rest ih =>
    obtain ⟨k, v⟩ := kv
    intro acc h
    rw [extractFromEntries]
    refine ih (fun x hx => he x (List.mem_cons_of_mem _ hx)) _ ?_
    split
    · exact he (k, v) (List.mem_cons_self _ _) acc h
    · exact h

theorem extractFrom_all_noMS :
    ∀ n, ∀ acc, acc.all noMS = true → (extractFrom n acc).all noMS = true := by
  refine node_ind (fun n => ∀ acc, acc.all noMS = true → (extractFrom n acc).all noMS = true)
    ?_ ?_ ?_
  · intro s acc h
    rw [extractFrom]
    split
    · exact h
    · split
      case isTrue hcond =>
        rw [List.all_append, h]
        simp only [List.all_cons, List.all_nil, Bool.and_true, Bool.true_and]
        simp only [Bool.and_eq_true] at hcond
        unfold noMS
        exact hcond.2
      case isFalse => exact h
  · intro l ih acc h
    rw [extractFrom]
    exact extractFromList_all ih acc h
  · intro e ih acc h
    rw [extractFrom]
    split
    · split
      · exact wtPush_all h
      · exact h
    · split
      · refine extractFromGet_all ih "w:p" _ ?_
        split
        · rw [List.all_append, h]; decide
        · exact h
      · split
        · exact extractFromGet_all ih "w:r" acc h
        · split
          · rw [List.all_append, h]; decide
          · split
            · rw [List.all_append, h]; decide
            · split
              · exact extractFromGet_all ih "w:document" acc h
              · split
                · exact extractFromGet_all ih "w:body" acc h
                · exact extractFromEntries_all ih acc h

theorem findTextList_all {l : List Node}
    (hl : ∀ x ∈ l, ∀ acc, acc.all noSchemas = true → (findText x acc).all noSchemas = true) :
    ∀ acc, acc.all noSchemas = true → (findTextList l acc).all noSchemas = true := by
  induction l with
  | nil => intro acc h; rw [findTextList]; exact h
  | cons n ns ih =>
    intro acc h
    rw [findTextList]
    exact ih (fun x hx => hl x (List.mem_cons_of_mem _ hx)) _
      (hl n (List.mem_cons_self _ _) acc h)

theorem findTextEntries_all {e : List (String × Node)}
    (he : ∀ kv ∈ e, ∀ acc, acc.all noSchemas = true → (findText kv.2 acc).all noSchemas = true) :
    ∀ acc, acc.all noSchemas = true → (findTextEntries e acc).all noSchemas = true := by
  induction e with
  | nil => intro acc h; rw [findTextEntries]; exact h
  | cons kv rest ih =>
    obtain ⟨k, v⟩ := kv
    intro acc h
    rw [findTextEntries]
    exact ih (fun x hx => he x (List.mem_cons_of_mem _ hx)) _
      (he (k, v) (List.mem_cons_self _ _) acc h)

theorem findText_all_noSchemas :
    ∀ n, ∀ acc, acc.all noSchemas = true → (findText n acc).all noSchemas = true := by
  refine node_ind (fun n => ∀ acc, acc.all noSchemas = true → (findText n acc).all noSchemas = true)
    ?_ ?_ ?_
  · intro s acc h
    rw [findText]
    split
    case isTrue hcond =>
      rw [List.all_append, h]
      simp only [List.all_cons, List.all_nil, Bool.and_true, Bool.true_and]
      simp only [Bool.and_eq_true, Bool.not_eq_true'] at hcond
      unfold noSchemas
      cases htr : containsStr (trimStr s) "http://schemas"
      · rfl
      · rw [containsStr_trim htr] at hcond
        exact absurd hcond.2 (by decide)
    case isFalse => exact h
  · intro l ih acc h
    rw [findText]
    exact findTextList_all ih acc h
  · intro e ih acc h
    rw [findText]
    exact findTextEntries_all ih acc h

/-! ## Claim C1 -/

/-- C1 (counterexample): for the two-paragraph document part
`w:body / w:p : [ run "First", run "Second" ]`, `extractText` does not
return `"First\n\nSecond"`: the claimed paragraph-break encoding (two
consecutive newlines between the paragraphs) does not survive extraction. -/
theorem C1_counterexample :
    extractText (Node.obj [("w:body", Node.obj [("w:p", Node.arr
      [Node.obj [("w:r", Node.obj [("w:t", Node.str "First")])],
       Node.obj [("w:r", Node.obj [("w:t", Node.str "Second")])]])])]) ≠
    "First\n\nSecond" := by decide

/-- C1 (amended): for the two-paragraph document part, `extractText`
returns `"First Second"`: with both paragraphs under one `w:p` sequence no
break fragment is inserted between them, and even when the document is
shaped so that a `"\n\n"` break fragment is inserted (each paragraph its
own object in a `w:body` sequence), the final whitespace normalization
collapses the newline pair into the single joining space. -/
theorem C1_amended :
    extractText (Node.obj [("w:body", Node.obj [("w:p", Node.arr
      [Node.obj [("w:r", Node.obj [("w:t", Node.str "First")])],
       Node.obj [("w:r", Node.obj [("w:t", Node.str "Second")])]])])]) = "First Second" ∧
    extractText (Node.obj [("w:body", Node.arr
      [Node.obj [("w:p", Node.arr [Node.obj [("w:r", Node.obj [("w:t", Node.str "First")])]])],
       Node.obj [("w:p", Node.arr [Node.obj [("w:r", Node.obj [("w:t", Node.str "Second")])]])]])]) =
    "First Second" := by decide

/-! ## Claim C2 -/

/-- C2 (counterexample): a text leaf whose trimmed content contains the
literal substring `"http://schemas"` can reach the extracted output: the
plain string-leaf branch only filters leaves containing
`"http://schemas.microsoft.com"`, so the leaf `" http://schemas.x "`
under a paragraph tag appears verbatim in the result of `extractText`. -/
theorem C2_counterexample :
    containsStr (trimStr " http://schemas.x ") "http://schemas" = true ∧
    extractText (Node.obj [("w:p", Node.str " http://schemas.x ")]) = "http://schemas.x" ∧
    containsStr (extractText (Node.obj [("w:p", Node.str " http://schemas.x ")]))
      "http://schemas" = true := by decide

/-- C2 (amended): for every input tree, no fragment collected by the
primary walk contains `"http://schemas.microsoft.com"` (the filter of the
plain string-leaf branch) and no fragment collected by the fallback scan
contains `"http://schemas"`; moreover the `w:t` branch filters the broader
`"http://schemas"` pattern: whenever the extracted `w:t` text contains
`"http://schemas"` the branch contributes nothing (the accumulator is
returned unchanged), and every fragment the `w:t` branch does contribute
is free of `"http://schemas"`.  Leaves containing non-Microsoft
`"http://schemas"` URIs are therefore filtered only in the `w:t` branch
and the fallback scan, not in the plain string-leaf branch. -/
theorem C2_amended (n : Node) :
    ((extractFrom n []).all noMS = true ∧ (findText n []).all noSchemas = true) ∧
    (∀ wt acc t, wtCandidate wt = some t → containsStr t "http://schemas" = true →
      wtPush wt acc = acc) ∧
    (∀ wt, (wtPush wt []).all noSchemas = true) := by
  refine ⟨⟨extractFrom_all_noMS n [] rfl, findText_all_noSchemas n [] rfl⟩, ?_, ?_⟩
  · intro wt acc t hc hcont
    unfold wtPush
    rw [hc]
    simp [hcont]
  · intro wt
    unfold wtPush
    cases hc : wtCandidate wt with
    | none => rfl
    | some t =>
      dsimp only
      split
      case isTrue hcond =>
        simp only [List.nil_append, List.all_cons, List.all_nil, Bool.and_true]
        simp only [Bool.and_eq_true] at hcond
        unfold noSchemas
        exact hcond.2
      case isFalse => rfl

/-- C2 (witness): the `w:t`-branch filter applied at the concrete text
`"http://schemas.x"` — the candidate is extracted, contains the filtered
pattern, and the branch leaves the accumulator unchanged. -/
theorem C2_witness :
    wtCandidate (Node.str "http://schemas.x") = some "http://schemas.x" ∧
    containsStr "http://schemas.x" "http://schemas" = true ∧
    wtPush (Node.str "http://schemas.x") ["keep"] = ["keep"] :=
  ⟨by decide, by decide,
    (C2_amended (Node.str "x")).2.1 (Node.str "http://schemas.x") ["keep"]
      "http://schemas.x" (by decide) (by decide)⟩

/-! ## Claim C3 -/

/-- C3 (counterexample): when the application-properties part carries a
truthy but non-numeric `Pages` value, `extractMetadata` does not leave the
`pages` field absent: it stores the NaN result of `parseInt`. -/
theorem C3_counterexample :
    (extractMetadataParts none (some (.ok (Node.obj [("Properties",
      Node.obj [("Pages", Node.str "abc")])])))).pages = some JsNum.nan ∧
    (extractMetadataParts none (some (.ok (Node.obj [("Properties",
      Node.obj [("Pages", Node.str "abc")])])))).pages ≠ none := by decide

/-- C3 (amended): when the application-properties part contains truthy
`Pages`, `Words` and `Characters` values on which `parseInt` yields NaN
(no parsable leading digits), the returned metadata stores NaN in each of
the three fields — the fields are present as NaN, not absent, and never
hold zero or any other integer. -/
theorem C3_amended (pv wv cv : Node)
    (hp : truthyN (some pv) = true) (hw : truthyN (some wv) = true)
    (hc : truthyN (some cv) = true)
    (hpn : parseIntNode pv = JsNum.nan) (hwn : parseIntNode wv = JsNum.nan)
    (hcn : parseIntNode cv = JsNum.nan) :
    extractMetadataParts none (some (.ok (Node.obj [("Properties",
      Node.obj [("Pages", pv), ("Words", wv), ("Characters", cv)])]))) =
    { pages := some JsNum.nan, words := some JsNum.nan, characters := some JsNum.nan } := by
  have e1 : getKey "Pages" [("Pages", pv), ("Words", wv), ("Characters", cv)] = some pv := by
    simp [getKey]
  have e2 : getKey "Words" [("Pages", pv), ("Words", wv), ("Characters", cv)] = some wv := by
    simp [getKey]
  have e3 : getKey "Characters" [("Pages", pv), ("Words", wv), ("Characters", cv)] = some cv := by
    simp [getKey]
  unfold extractMetadataParts appFields propsOr
  simp only [getProp, getKey, e1, e2, e3]
  simp only [truthyN] at hp hw hc
  simp [e1, e2, e3, hp, hw, hc, hpn, hwn, hcn, truthyN]

/-- C3 (witness): the amended claim at the concrete non-numeric value
`"abc"` in all three fields. -/
theorem C3_witness :
    extractMetadataParts none (some (.ok (Node.obj [("Properties",
      Node.obj [("Pages", Node.str "abc"), ("Words", Node.str "abc"),
        ("Characters", Node.str "abc")])]))) =
    { pages := some JsNum.nan, words := some JsNum.nan, characters := some JsNum.nan } :=
  C3_amended (Node.str "abc") (Node.str "abc") (Node.str "abc")
    (by decide) (by decide) (by decide) (by decide) (by decide) (by decide)

/-! ## Claim C4 -/

theorem string_eq_empty_iff_len {s : String} : s = "" ↔ s.length = 0 := by
  constructor
  · rintro rfl; rfl
  · intro h
    have hd : s.data = [] := List.length_eq_zero.mp h
    cases s
    simp_all

/-- C4: for every input tree, when the primary pipeline result is shorter
than ten characters the fallback scan's output replaces it exactly when
the fallback is strictly longer, and otherwise the primary result stands;
when the primary result has length at least ten, the fallback never
replaces it. -/
theorem C4_confirmed (n : Node) :
    extractText n =
      if (primaryText n).length < 10 then
        if (extractTextFallback n).length > (primaryText n).length then extractTextFallback n
        else primaryText n
      else primaryText n := by
  unfold extractText
  by_cases h10 : (primaryText n).length < 10
  · by_cases hf : (extractTextFallback n).length > (primaryText n).length
    · have hfne : extractTextFallback n ≠ "" := by
        intro he
        rw [he] at hf
        have h0 : ("" : String).length = 0 := rfl
        rw [h0] at hf
        omega
      simp [h10, hf, hfne]
    · simp [h10, hf]
  · have hne : primaryText n ≠ "" := by
      intro he
      have h0 : (primaryText n).length = 0 := string_eq_empty_iff_len.mp he
      omega
    simp [h10, hne]

/-! ## Claim C8 -/

/-- C8 (counterexample): the sentence `"Red dOg"` is under fifty
characters, starts with an uppercase letter and contains a later uppercase
letter, yet markdown rendering does not promote it to a `## ` sub-heading:
the heading test requires the second uppercase letter to follow only
lowercase letters and whitespace (`/^[A-Z][a-z]*\s*[A-Z]/`), which
`"Red dOg"` fails at the lowercase letter after the space. -/
theorem C8_counterexample :
    decide ("Red dOg".length < 50) = true ∧
    isUpperAZ ("Red dOg".data.headD ' ') = true ∧
    "Red dOg".data.tail.any isUpperAZ = true ∧
    convertToMarkdown "Red dOg" none = "Red dOg" ∧
    startsWithStr (convertToMarkdown "Red dOg" none) "## " = false := by decide

set_option maxRecDepth 40000 in
/-- C8 (amended): a sentence with a non-empty trim is promoted to a `## `
sub-heading, flushing the accumulated paragraph buffer first, exactly when
it is under fifty characters and matches the pattern `headingPat` (an
uppercase letter, zero or more lowercase letters, zero or more whitespace
characters, then an uppercase letter) — otherwise it is buffered, with the
buffer flushed once over two hundred characters (`mdStep`); in particular
a thirty-character heading-shaped sentence followed by a 250-character
sentence renders as one `## ` heading line followed by one flushed
paragraph block. -/
theorem C8_amended (s : String) (rest : List String) (para acc : String)
    (hne : trimStr s ≠ "") :
    mdLoop (s :: rest) para acc = mdStep s rest para acc ∧
    (("The Quick Brown Fox Runs Home.".length = 30 ∧
      headingPat "The Quick Brown Fox Runs Home." = true) ∧
    ("the quiet valley kept its slow morning light while every footpath wound between hedges and low stone walls toward the river meadow where swallow turned above the reeds and the miller walked out to check the gate before carts arrived from town at six.".length = 250) ∧
    convertToMarkdown ("The Quick Brown Fox Runs Home." ++ " " ++ "the quiet valley kept its slow morning light while every footpath wound between hedges and low stone walls toward the river meadow where swallow turned above the reeds and the miller walked out to check the gate before carts arrived from town at six.") none =
      "## " ++ "The Quick Brown Fox Runs Home." ++ "\n\n" ++ "the quiet valley kept its slow morning light while every footpath wound between hedges and low stone walls toward the river meadow where swallow turned above the reeds and the miller walked out to check the gate before carts arrived from town at six.") := by
  constructor
  · rw [mdLoop]
    have h0 : (trimStr s == "") = false := beq_eq_false_iff_ne.mpr hne
    unfold mdStep
    simp only [h0, Bool.false_eq_true, if_false]
    by_cases h50 : (trimStr s).length < 50 <;>
      by_cases hpat : headingPat (trimStr s) = true <;>
      by_cases hp : para = "" <;>
      by_cases h200 : (para ++ trimStr s ++ " ").length > 200 <;>
      simp [h50, hpat, hp, h200]
  · decide

/-- C8 (witness): the loop-step characterization applied to the concrete
sentence `"My Title Here."`. -/
theorem C8_witness :
    trimStr "My Title Here." ≠ "" ∧
    mdLoop ["My Title Here."] "" "" = mdStep "My Title Here." [] "" "" :=
  ⟨by decide, (C8_amended "My Title Here." [] "" "" (by decide)).1⟩

/-! ## Claim C9: whitespace normalization -/

theorem squashRuns_mem {b : Bool} {l : List Char} {c : Char}
    (hc : c ∈ squashRuns isWsChar ' ' b l) : isWsChar c = false ∨ c = ' ' := by
  induction l generalizing b with
  | nil => simp [squashRuns] at hc
  | cons a cs ih =>
    rw [squashRuns] at hc
    by_cases ha : isWsChar a = true
    · rw [if_pos ha] at hc
      cases b with
      | true => simpa using ih (by simpa using hc)
      | false =>
        simp only [Bool.false_eq_true, if_false] at hc
        rcases List.mem_cons.mp hc with h | h
        · exact Or.inr h
        · exact ih h
    · rw [if_neg ha] at hc
      rcases List.mem_cons.mp hc with h | h
      · exact Or.inl (h ▸ Bool.eq_false_iff.mpr ha)
      · exact ih h

theorem squashRuns_head_true {l : List Char} :
    ∀ c, (squashRuns isWsChar ' ' true l).head? = some c → isWsChar c = false := by
  induction l with
  | nil => intro c h; simp [squashRuns] at h
  | cons a cs ih =>
    intro c h
    rw [squashRuns] at h
    by_cases ha : isWsChar a = true
    · rw [if_pos ha] at h
      simp only [if_true] at h
      exact ih c h
    · rw [if_neg ha] at h
      simp only [List.head?_cons, Option.some.injEq] at h
      exact h ▸ Bool.eq_false_iff.mpr ha

theorem squashRuns_chain (b : Bool) (l : List Char) :
    List.Chain' (fun x y => ¬(isWsChar x = true ∧ isWsChar y = true))
      (squashRuns isWsChar ' ' b l) := by
  induction l generalizing b with
  | nil => simp [squashRuns]
  | cons a cs ih =>
    rw [squashRuns]
    by_cases ha : isWsChar a = true
    · rw [if_pos ha]
      cases b with
      | true => simpa using ih true
      | false =>
        simp only [Bool.false_eq_true, if_false]
        rw [List.chain'_cons']
        refine ⟨?_, ih true⟩
        intro y hy hcontra
        exact absurd hcontra.2 (by simp [squashRuns_head_true y hy])
    · rw [if_neg ha]
      rw [List.chain'_cons']
      refine ⟨?_, ih false⟩
      intro y hy hcontra
      exact absurd hcontra.1 ha

theorem trimChars_head {m : List Char} {c : Char} (h : (trimChars m).head? = some c) :
    isWsChar c = false := by
  unfold trimChars at h
  have hpre : ((m.dropWhile isWsChar).reverse.dropWhile isWsChar).reverse <+:
      m.dropWhile isWsChar := by
    have h2 : (m.dropWhile isWsChar).reverse.dropWhile isWsChar <:+
        (m.dropWhile isWsChar).reverse := List.dropWhile_suffix _
    have h4 := List.reverse_prefix.mpr h2
    rwa [List.reverse_reverse] at h4
  obtain ⟨t, ht⟩ := hpre
  have hxh : (m.dropWhile isWsChar).head? = some c := by
    rw [← ht, List.head?_append, h]
    rfl
  have hw := List.head?_dropWhile_not isWsChar m
  rw [hxh] at hw
  exact hw

theorem trimChars_last {m : List Char} {c : Char} (h : (trimChars m).getLast? = some c) :
    isWsChar c = false := by
  unfold trimChars at h
  rw [List.getLast?_eq_head?_reverse, List.reverse_reverse] at h
  have hw := List.head?_dropWhile_not isWsChar (m.dropWhile isWsChar).reverse
  rw [h] at hw
  exact hw

theorem squashTrim_wellSpaced (l : List Char) :
    wellSpaced ⟨trimChars (squashRuns isWsChar ' ' false l)⟩ = true := by
  unfold wellSpaced
  simp only [Bool.and_eq_true, List.all_eq_true]
  have hsub : ∀ c ∈ trimChars (squashRuns isWsChar ' ' false l),
      isWsChar c = false ∨ c = ' ' := by
    intro c hc
    exact squashRuns_mem ((trimChars_within _).sublist.subset hc)
  refine ⟨⟨⟨⟨⟨?_, ?_⟩, ?_⟩, ?_⟩, ?_⟩, ?_⟩
  · intro c hc
    rcases hsub c hc with h | h
    · simp only [Bool.not_eq_true']
      rw [beq_eq_false_iff_ne]
      intro heq
      exact absurd h (by simp [heq, isWsChar])
    · simp [h]
  · intro c hc
    rcases hsub c hc with h | h
    · simp only [Bool.not_eq_true']
      rw [beq_eq_false_iff_ne]
      intro heq
      exact absurd h (by simp [heq, isWsChar])
    · simp [h]
  · intro c hc
    rcases hsub c hc with h | h
    · simp [h]
    · simp [h]
  · simp only [Bool.not_eq_true']
    unfold containsStr
    cases hcs : containsSub "  ".data (String.data ⟨trimChars (squashRuns isWsChar ' ' false l)⟩)
    · rfl
    · exfalso
      rw [String.data] at hcs
      have hinf : "  ".data <:+: trimChars (squashRuns isWsChar ' ' false l) :=
        (containsSub_spec _ _).mp hcs
      have hch := List.Chain'.infix (squashRuns_chain false l) (hinf.trans (trimChars_within _))
      have : ¬(isWsChar ' ' = true ∧ isWsChar ' ' = true) := by
        have h2 : ("  ".data : List Char) = [' ', ' '] := rfl
        rw [h2] at hch
        rw [List.chain'_cons'] at hch
        exact hch.1 ' ' rfl
      exact this (by decide)
  · simp only [Bool.not_eq_true']
    cases hh : (String.data ⟨trimChars (squashRuns isWsChar ' ' false l)⟩).head?
    · rfl
    case some c =>
      rw [String.data] at hh
      have hw := trimChars_head hh
      have : ¬(c = ' ') := by
        intro hsp
        rw [hsp] at hw
        exact absurd hw (by decide)
      simp [this]
  · simp only [Bool.not_eq_true']
    cases hh : (String.data ⟨trimChars (squashRuns isWsChar ' ' false l)⟩).getLast?
    · rfl
    case some c =>
      rw [String.data] at hh
      have hw := trimChars_last hh
      have : ¬(c = ' ') := by
        intro hsp
        rw [hsp] at hw
        exact absurd hw (by decide)
      simp [this]

theorem wellSpaced_primary (n : Node) : wellSpaced (primaryText n) = true :=
  squashTrim_wellSpaced _

theorem wellSpaced_fallback (n : Node) : wellSpaced (extractTextFallback n) = true :=
  squashTrim_wellSpaced _

/-- C9: for every input tree, the string returned by `extractText` contains
no newline and no tab; every whitespace character in it is a single plain
space, never doubled, with no leading or trailing whitespace — both the
primary pipeline and the fallback path end by collapsing every whitespace
run to a single space and trimming. -/
theorem C9_confirmed (n : Node) : wellSpaced (extractText n) = true := by
  unfold extractText
  dsimp only
  split
  · split
    · exact wellSpaced_fallback n
    · exact wellSpaced_primary n
  · exact wellSpaced_primary n

/-! ## Claim C5: excluded-subtree independence -/

theorem exclKey_not_allowed {k : String} (h : exclKey k = true) : allowedKey k = false := by
  unfold exclKey at h
  simp only [Bool.or_eq_true, Bool.not_eq_true'] at h
  unfold allowedKey
  rcases h with ((((h | h) | h) | h) | h) | h <;> simp [h]

theorem exclKey_ne {k : String} (h : exclKey k = true) :
    k ≠ "w:t" ∧ k ≠ "w:p" ∧ k ≠ "w:r" ∧ k ≠ "w:tab" ∧ k ≠ "w:br" ∧
    k ≠ "w:document" ∧ k ≠ "w:body" := by
  refine ⟨?_, ?_, ?_, ?_, ?_, ?_, ?_⟩ <;>
  · rintro rfl
    revert h
    decide

theorem getKey_replace {d k : String} (hne : d ≠ k) (pre rest : List (String × Node))
    (v v' : Node) :
    getKey d (pre ++ (k, v) :: rest) = getKey d (pre ++ (k, v') :: rest) := by
  induction pre with
  | nil =>
    simp only [List.nil_append]
    rw [getKey, getKey]
    rw [if_neg (fun hh => hne hh.symm), if_neg (fun hh => hne hh.symm)]
  | cons p pre ih =>
    obtain ⟨pk, pv⟩ := p
    simp only [List.cons_append]
    rw [getKey, getKey]
    split
    · rfl
    · exact ih

theorem extractFromGet_replace {d k : String} (hne : d ≠ k) (pre rest : List (String × Node))
    (v v' : Node) (acc : List String) :
    extractFromGet (pre ++ (k, v) :: rest) d acc =
    extractFromGet (pre ++ (k, v') :: rest) d acc := by
  induction pre generalizing acc with
  | nil =>
    simp only [List.nil_append]
    rw [extractFromGet, extractFromGet]
    rw [if_neg (fun hh => hne hh.symm), if_neg (fun hh => hne hh.symm)]
  | cons p pre ih =>
    obtain ⟨pk, pv⟩ := p
    simp only [List.cons_append]
    rw [extractFromGet, extractFromGet]
    split
    · rfl
    · exact ih acc

theorem extractFromEntries_replace {k : String} (hk : allowedKey k = false)
    (pre rest : List (String × Node)) (v v' : Node) :
    ∀ acc, extractFromEntries (pre ++ (k, v) :: rest) acc =
      extractFromEntries (pre ++ (k, v') :: rest) acc := by
  induction pre with
  | nil =>
    intro acc
    simp only [List.nil_append]
    rw [extractFromEntries, extractFromEntries]
    simp [hk]
  | cons p pre ih =>
    intro acc
    obtain ⟨pk, pv⟩ := p
    simp only [List.cons_append]
    rw [extractFromEntries, extractFromEntries]
    exact ih _

/-- C5 (amended): text reachable only through a child whose tag name does
not start with `"w:"` or contains `"Pr"`, `"Style"`, `"Properties"`,
`"Fonts"` or `"Settings"` is excluded from the primary walk by the generic
recursion step: the fragments collected from an element are entirely
independent of the subtree stored under such a key, whatever surrounds it
and whatever the accumulated state — so the exclusion holds at every
recursion level.  (The literal-text rule is unaffected: an excluded key is
never one of the dispatched structural tags.)  The final output of
`extractText` may still expose such text through the fallback scan when
the primary result is shorter than ten characters. -/
theorem C5_amended (pre rest : List (String × Node)) (k : String) (v v' : Node)
    (acc : List String) (h : exclKey k = true) :
    extractFrom (Node.obj (pre ++ (k, v) :: rest)) acc =
    extractFrom (Node.obj (pre ++ (k, v') :: rest)) acc := by
  obtain ⟨h1, h2, h3, h4, h5, h6, h7⟩ := exclKey_ne h
  have g1 := getKey_replace (fun hh => h1 hh.symm) pre rest v v'
  have g2 := getKey_replace (fun hh => h2 hh.symm) pre rest v v'
  have g3 := getKey_replace (fun hh => h3 hh.symm) pre rest v v'
  have g4 := getKey_replace (fun hh => h4 hh.symm) pre rest v v'
  have g5 := getKey_replace (fun hh => h5 hh.symm) pre rest v v'
  have g6 := getKey_replace (fun hh => h6 hh.symm) pre rest v v'
  have g7 := getKey_replace (fun hh => h7 hh.symm) pre rest v v'
  rw [extractFrom, extractFrom]
  rw [g1, g2, g3, g4, g5, g6, g7]
  split
  · rfl
  · split
    · exact extractFromGet_replace (fun hh => h2 hh.symm) pre rest v v' _
    · split
      · exact extractFromGet_replace (fun hh => h3 hh.symm) pre rest v v' _
      · split
        · rfl
        · split
          · rfl
          · split
            · exact extractFromGet_replace (fun hh => h6 hh.symm) pre rest v v' _
            · split
              · exact extractFromGet_replace (fun hh => h7 hh.symm) pre rest v v' _
              · exact extractFromEntries_replace (exclKey_not_allowed h) pre rest v v' _

/-- C5 (counterexample): text stored only under the excluded tag
`"w:pPr"` (name containing `"Pr"`, not reachable via the literal-text
rule) is nevertheless present in the final extracted output: the primary
walk excludes it, yielding an empty primary result, so the fallback scan
runs and returns the hidden text. -/
theorem C5_counterexample :
    containsStr "w:pPr" "Pr" = true ∧
    extractText (Node.obj [("w:pPr", Node.str "hidden words beyond limits")]) =
      "hidden words beyond limits" := by decide

/-- C5 (witness): the amended independence at a concrete element — an
excluded `"w:pPr"` subtree can be replaced without changing the walk. -/
theorem C5_witness :
    exclKey "w:pPr" = true ∧
    extractFrom (Node.obj ([] ++ ("w:pPr", Node.str "SECRET") ::
      [("w:r", Node.str "hello")])) [] =
    extractFrom (Node.obj ([] ++ ("w:pPr", Node.str "") ::
      [("w:r", Node.str "hello")])) [] :=
  ⟨by decide, C5_amended [] [("w:r", Node.str "hello")] "w:pPr"
    (Node.str "SECRET") (Node.str "") [] (by decide)⟩

/-! ## Claims C6 and C7: the orchestrator -/

/-- C6: every result returned by `parseDocument` satisfies the invariant:
`success = true` implies the `content` field is present (possibly the
empty string), and a non-empty `errors` sequence implies
`success = false`; the call returns a structured record for every
configuration and every collaborator outcome. -/
theorem C6_confirmed (cfg : WordConfig) (env : ParseEnv) :
    ((parseDocument cfg env).success = true → (parseDocument cfg env).content.isSome = true) ∧
    ((parseDocument cfg env).errors ≠ [] → (parseDocument cfg env).success = false) := by
  unfold parseDocument parseAfterSafety
  repeat' split
  all_goals simp

/-- C6 (witness): the invariant applied on a successful run (content is
present) and on a safety-rejected run (non-empty errors force failure). -/
theorem C6_witness :
    (parseDocument {} ⟨.ok { isSafe := true, issues := [] },
        .ok [("word/document.xml", "x")], fun _ => .ok (.str "")⟩).content.isSome = true ∧
    (parseDocument {} ⟨.ok { isSafe := false, issues := ["bad"] },
        .ok [("word/document.xml", "x")], fun _ => .ok (.str "")⟩).success = false :=
  ⟨(C6_confirmed _ _).1 (by decide), (C6_confirmed _ _).2 (by decide)⟩

/-- C7: when safety checks are enabled and the safety collaborator reports
`isSafe = false` with issue list `s.issues`, `parseDocument` returns
`success = false` with `errors` equal to that issue list and no content,
metadata or images — and the result is the same for every container
outcome and every XML collaborator, so the container is never read. -/
theorem C7_confirmed (cfg : WordConfig) (s : SafetyResult)
    (container : Except String (List (String × String)))
    (parseXml : String → Except String Node)
    (hs : cfg.safetyChecks = true) (hflag : s.isSafe = false) :
    parseDocument cfg ⟨.ok s, container, parseXml⟩ =
      { success := false, content := none, metadata := none, images := none,
        warnings := [], errors := s.issues } := by
  unfold parseDocument
  rw [if_pos hs]
  simp [hflag]

/-- C7 (witness): the safety-rejection path at a concrete configuration,
with a failing container and a failing XML collaborator — the result still
carries exactly the safety issues. -/
theorem C7_witness :
    parseDocument {} ⟨.ok { isSafe := false, issues := ["Unsupported file extension"] },
        .error "no container", fun _ => .error "no xml"⟩ =
      { success := false, content := none, metadata := none, images := none,
        warnings := [], errors := ["Unsupported file extension"] } :=
  C7_confirmed {} { isSafe := false, issues := ["Unsupported file extension"] }
    (.error "no container") (fun _ => .error "no xml") rfl rfl
